import Mathlib

/-!
Verification of the party-detection and reference-matching engine of the
Smart Contract Party Highlighter (src/src/taskpane/taskpane.ts).

The TypeScript source is shallowly embedded below.  Strings are Lean
`String`s manipulated through `List Char`; the JavaScript regular
expressions used by the source are translated into explicit backtracking
match functions over `List Char` with the same leftmost-first and
greedy/lazy preferences as the originals.  JavaScript whitespace (`\s`) is
modelled by its ASCII part plus NBSP, `\w` by `[A-Za-z0-9_]`, and
`String.prototype.toLowerCase`/`toUpperCase` by the ASCII case maps, which
agree with JavaScript on all inputs appearing in these developments.  The
Word host (document body, search, content controls, settings) is modelled
explicitly as state where a claim needs it.
-/

namespace PartyHL

/-- The ASCII apostrophe character. -/
def apos : Char := '\''

/-- JavaScript `\s` (the ASCII part plus NBSP). -/
def jsSpace (c : Char) : Bool :=
  c = ' ' || c = '\t' || c = '\n' || c = '\r' ||
  c = Char.ofNat 11 || c = Char.ofNat 12 || c = Char.ofNat 160

/-- JavaScript `\w`, i.e. `[A-Za-z0-9_]`. -/
def isWordChar (c : Char) : Bool :=
  (('a' ≤ c && c ≤ 'z') || ('A' ≤ c && c ≤ 'Z') || ('0' ≤ c && c ≤ '9') || c = '_')

/-- ASCII lower-casing of one character (JavaScript `toLowerCase` on ASCII). -/
def lowerChar (c : Char) : Char :=
  if 'A' ≤ c && c ≤ 'Z' then Char.ofNat (c.toNat + 32) else c

/-- ASCII upper-casing of one character (JavaScript `toUpperCase` on ASCII). -/
def upperChar (c : Char) : Char :=
  if 'a' ≤ c && c ≤ 'z' then Char.ofNat (c.toNat - 32) else c

/-- JavaScript `String.prototype.toLowerCase` (ASCII fragment). -/
def jsLower (s : String) : String := String.mk (s.toList.map lowerChar)

/-- JavaScript `String.prototype.toUpperCase` (ASCII fragment). -/
def jsUpper (s : String) : String := String.mk (s.toList.map upperChar)

/-- Drop the trailing run of characters satisfying `p`. -/
def dropLastWhile (p : Char → Bool) (l : List Char) : List Char :=
  (l.reverse.dropWhile p).reverse

/-- JavaScript `String.prototype.trim` (over the modelled whitespace set). -/
def jsTrim (s : String) : String :=
  String.mk (dropLastWhile jsSpace (s.toList.dropWhile jsSpace))

/-- Case-insensitive (ASCII) match of the literal `lit` at the head of `l`;
returns the remaining characters on success. -/
def matchLitCI : List Char → List Char → Option (List Char)
  | [], rest => some rest
  | _ :: _, [] => none
  | c :: cs, r :: rs => if lowerChar r = lowerChar c then matchLitCI cs rs else none

/-! ### Term building (taskpane.ts lines 336–375) -/

/-- `type Party = { name: string; role?: string }` (taskpane.ts line 14). -/
structure Party where
  name : String
  role : Option String := none
deriving DecidableEq, Repr

/-- `makePossessive` (taskpane.ts line 352): append `'s`, or only `'` when the
string already ends in `s`/`S`; the empty string is returned unchanged. -/
def makePossessive (s : String) : String :=
  if s = "" then s
  else if s.toList.getLast? = some 's' ∨ s.toList.getLast? = some 'S'
  then s ++ "'"
  else s ++ "'s"

/-- `dedupe` (taskpane.ts line 373): JavaScript `Array.from(new Set(arr))`,
keeping the first occurrence of each element. -/
def dedupe (arr : List String) : List String :=
  arr.foldl (fun out s => if s ∈ out then out else out ++ [s]) []

/-- The ten default role words (taskpane.ts line 358). -/
def baseRoles : List String :=
  ["Company", "Contractor", "Client", "Customer", "Licensor",
   "Licensee", "Provider", "Vendor", "Reseller", "Partner"]

/-- The four alias forms generated from one role word
(`addForms`, taskpane.ts line 359). -/
def addForms (r : String) : List String :=
  [r, "the " ++ r, jsUpper r, "the " ++ jsUpper r]

/-- `buildAliases` (taskpane.ts lines 356–362). -/
def buildAliases (p : Party) : List String :=
  match p.role with
  | some r => dedupe (addForms r)
  | none => dedupe (baseRoles.flatMap addForms)

/-- Test of `/(holdings|group|partners)\b/i` at the head of `l`. -/
def hgpHeadTest (l : List Char) : Bool :=
  (["holdings", "group", "partners"] : List String).any fun w =>
    match matchLitCI w.toList l with
    | some rest =>
      match rest with
      | [] => true
      | d :: _ => !isWordChar d
    | none => false

/-- Test of `/(holdings|group|partners)\b/i` anywhere in `l`. -/
def hgpTest : List Char → Bool
  | [] => false
  | c :: rest => hgpHeadTest (c :: rest) || hgpTest rest

/-- Test of `/[^']s\b/i` anywhere in `l`: a character other than the ASCII
apostrophe, immediately followed by `s`/`S` at a word boundary. -/
def nonPossSTest : List Char → Bool
  | [] => false
  | [_] => false
  | c :: d :: rest =>
    (c ≠ apos && (d = 's' || d = 'S') &&
      (match rest with
       | [] => true
       | e :: _ => !isWordChar e)) || nonPossSTest (d :: rest)

/-- `pronounsFor` (taskpane.ts lines 364–367). -/
def pronounsFor (name : String) : List String :=
  let pluralHint := hgpTest name.toList || nonPossSTest name.toList
  if pluralHint then ["they", "their", "themselves"] else ["it", "its", "itself"]

/-- `isPossessive` (taskpane.ts line 369): test of `/'\s*s?$/`. -/
def isPossessive (term : String) : Bool :=
  let r := term.toList.reverse
  let r1 := match r with
    | 's' :: rest => rest
    | _ => r
  match r1.dropWhile jsSpace with
  | c :: _ => c = apos
  | [] => false

/-- `add` (taskpane.ts line 348): insert the trimmed string into the ordered
set unless it is empty. -/
def addTerm (out : List String) (s : String) : List String :=
  if s = "" then out
  else if jsTrim s = "" then out
  else if jsTrim s ∈ out then out else out ++ [jsTrim s]

/-- `buildTerms` (taskpane.ts lines 336–346): name, its possessive, every
alias and its possessive, then the pronouns, collected into an ordered set. -/
def buildTerms (name : String) (aliases pronouns : List String) : List String :=
  let u := addTerm (addTerm [] name) (makePossessive name)
  let u := aliases.foldl (fun acc a => addTerm (addTerm acc a) (makePossessive a)) u
  pronouns.foldl addTerm u

lemma getLast?_cons_ne (d : Char) (ds : List Char) (h : ds ≠ []) :
    (d :: ds).getLast? = ds.getLast? := by
  cases ds with
  | nil => exact absurd rfl h
  | cons e es => simp [List.getLast?_cons_cons]

lemma dropWhile_dropWhile (p : Char → Bool) :
    ∀ l : List Char, (l.dropWhile p).dropWhile p = l.dropWhile p
  | [] => rfl
  | c :: cs => by
    cases hp : p c with
    | true =>
      simp only [List.dropWhile_cons, hp, if_true]
      exact dropWhile_dropWhile p cs
    | false => simp [List.dropWhile_cons, hp]

lemma head?_dropWhile (p : Char → Bool) :
    ∀ l : List Char, ∀ c, (l.dropWhile p).head? = some c → p c = false
  | [], c => by simp [List.dropWhile]
  | d :: ds, c => by
    cases hp : p d with
    | true =>
      simp only [List.dropWhile_cons, hp, if_true]
      exact head?_dropWhile p ds c
    | false =>
      simp only [List.dropWhile_cons, hp, Bool.false_eq_true, if_false,
        List.head?_cons, Option.some.injEq]
      rintro rfl
      exact hp

lemma getLast?_dropWhile (p : Char → Bool) :
    ∀ l : List Char, l.dropWhile p ≠ [] → (l.dropWhile p).getLast? = l.getLast?
  | [], h => by simp [List.dropWhile] at h
  | d :: ds, h => by
    cases hp : p d with
    | true =>
      simp only [List.dropWhile_cons, hp, if_true] at h ⊢
      have hds : ds ≠ [] := by
        intro he; rw [he] at h; simp [List.dropWhile] at h
      rw [getLast?_dropWhile p ds h, getLast?_cons_ne d ds hds]
    | false => simp [List.dropWhile_cons, hp]

lemma dropWhile_eq_self (p : Char → Bool) (l : List Char)
    (h : ∀ c, l.head? = some c → p c = false) : l.dropWhile p = l := by
  cases l with
  | nil => rfl
  | cons c cs => simp [List.dropWhile_cons, h c rfl]

lemma toList_mk (l : List Char) : (String.mk l).toList = l := rfl

lemma jsTrim_idem (s : String) : jsTrim (jsTrim s) = jsTrim s := by
  unfold jsTrim dropLastWhile
  rw [toList_mk]
  set p := jsSpace
  set l1 := s.toList.dropWhile p with hl1
  have step1 : ((l1.reverse.dropWhile p).reverse).dropWhile p
      = (l1.reverse.dropWhile p).reverse := by
    apply dropWhile_eq_self
    intro c hc
    rw [List.head?_reverse] at hc
    have hne : l1.reverse.dropWhile p ≠ [] := by
      intro he; rw [he] at hc; simp at hc
    rw [getLast?_dropWhile p _ hne, List.getLast?_reverse] at hc
    exact head?_dropWhile p s.toList c (by rw [← hl1]; exact hc)
  rw [step1, List.reverse_reverse, dropWhile_dropWhile]

/-- The invariant of the ordered term set built by `addTerm`: no duplicates,
every element trimmed and non-empty. -/
def GoodTerms (out : List String) : Prop :=
  out.Nodup ∧ ∀ x ∈ out, jsTrim x = x ∧ x ≠ ""

lemma goodTerms_addTerm {out : List String} (s : String) (h : GoodTerms out) :
    GoodTerms (addTerm out s) := by
  by_cases h1 : s = ""
  · simpa [addTerm, h1] using h
  by_cases h2 : jsTrim s = ""
  · simpa [addTerm, h1, h2] using h
  by_cases h3 : jsTrim s ∈ out
  · simpa [addTerm, h1, h2, h3] using h
  · have he : addTerm out s = out ++ [jsTrim s] := by simp [addTerm, h1, h2, h3]
    rw [he]
    refine ⟨?_, ?_⟩
    · rw [List.nodup_append]
      exact ⟨h.1, List.nodup_singleton _, by simpa [List.disjoint_singleton] using h3⟩
    · intro x hx
      rcases List.mem_append.mp hx with hx | hx
      · exact h.2 x hx
      · rcases List.mem_singleton.mp hx with rfl
        exact ⟨jsTrim_idem s, h2⟩

lemma goodTerms_foldl_of (f : List String → String → List String)
    (hf : ∀ acc s, GoodTerms acc → GoodTerms (f acc s)) :
    ∀ (l : List String) (acc : List String), GoodTerms acc → GoodTerms (l.foldl f acc)
  | [], _, h => h
  | s :: rest, acc, h => goodTerms_foldl_of f hf rest (f acc s) (hf acc s h)

lemma goodTerms_nil : GoodTerms [] := ⟨List.nodup_nil, by simp⟩

lemma goodTerms_buildTerms (n : String) (al pr : List String) :
    GoodTerms (buildTerms n al pr) := by
  unfold buildTerms
  apply goodTerms_foldl_of _ (fun _ s h => goodTerms_addTerm s h)
  apply goodTerms_foldl_of _ (fun _ s h => goodTerms_addTerm _ (goodTerms_addTerm s h))
  exact goodTerms_addTerm _ (goodTerms_addTerm _ goodTerms_nil)

lemma foldl_addTerm_pair (mp : String → String) :
    ∀ (al : List String) (acc : List String),
      al.foldl (fun acc a => addTerm (addTerm acc a) (mp a)) acc
        = (al.flatMap fun a => [a, mp a]).foldl addTerm acc
  | [], _ => rfl
  | a :: rest, acc => by
    simp only [List.foldl_cons, List.flatMap_cons, List.foldl_append]
    exact foldl_addTerm_pair mp rest _

lemma buildTerms_generators (n : String) (al pr : List String) :
    buildTerms n al pr
      = (([n, makePossessive n] ++ (al.flatMap fun a => [a, makePossessive a]) ++ pr).foldl
          addTerm []) := by
  show (pr.foldl addTerm
      (al.foldl (fun acc a => addTerm (addTerm acc a) (makePossessive a))
        (addTerm (addTerm [] n) (makePossessive n)))) = _
  rw [List.foldl_append, List.foldl_append, foldl_addTerm_pair]
  rfl

lemma matchLitCI_some_iff :
    ∀ (lit l rest : List Char),
      matchLitCI lit l = some rest ↔
        ∃ mid, l = mid ++ rest ∧ mid.map lowerChar = lit.map lowerChar
  | [], l, rest => by
    constructor
    · intro h
      have hl : l = rest := by simpa [matchLitCI] using h
      exact ⟨[], by simp [hl], by simp⟩
    · rintro ⟨mid, hl, hm⟩
      have hmid : mid = [] := by
        have := congrArg List.length hm
        simpa using this
      subst hmid
      simp only [List.nil_append] at hl
      simpa [matchLitCI] using hl
  | _ :: _, [], rest => by
    constructor
    · intro h; simp [matchLitCI] at h
    · rintro ⟨mid, hl, hm⟩
      have hmid : mid = [] := (List.append_eq_nil.mp hl.symm).1
      subst hmid
      simp at hm
  | c :: cs, r :: rs, rest => by
    by_cases he : lowerChar r = lowerChar c
    · rw [show matchLitCI (c :: cs) (r :: rs) = matchLitCI cs rs by simp [matchLitCI, he],
        matchLitCI_some_iff cs rs rest]
      constructor
      · rintro ⟨mid, hl, hm⟩
        exact ⟨r :: mid, by simp [hl], by simp [hm, he]⟩
      · rintro ⟨mid, hl, hm⟩
        cases mid with
        | nil => simp at hm
        | cons a as =>
          simp only [List.cons_append, List.cons.injEq] at hl
          simp only [List.map_cons, List.cons.injEq] at hm
          exact ⟨as, hl.2, hm.2⟩
    · rw [show matchLitCI (c :: cs) (r :: rs) = none by simp [matchLitCI, he]]
      constructor
      · intro h; cases h
      · rintro ⟨mid, hl, hm⟩
        cases mid with
        | nil => simp at hm
        | cons a as =>
          simp only [List.cons_append, List.cons.injEq] at hl
          simp only [List.map_cons, List.cons.injEq] at hm
          exact absurd (hl.1 ▸ hm.1) he

/-- Declarative reading of `/(holdings|group|partners)\b/i` holding somewhere
in the character list. -/
def HgpOccurs (l : List Char) : Prop :=
  ∃ w : String, w ∈ (["holdings", "group", "partners"] : List String) ∧
    ∃ pre mid post, l = pre ++ mid ++ post ∧ mid.map lowerChar = w.toList ∧
      (post = [] ∨ ∃ d post2, post = d :: post2 ∧ isWordChar d = false)

/-- Declarative reading of `/[^']s\b/i` holding somewhere in the character
list. -/
def NonPossSOccurs (l : List Char) : Prop :=
  ∃ pre c s post, l = pre ++ c :: s :: post ∧ c ≠ '\'' ∧ (s = 's' ∨ s = 'S') ∧
    (post = [] ∨ ∃ d post2, post = d :: post2 ∧ isWordChar d = false)

lemma hgpWords_lower_fixed :
    ∀ w ∈ (["holdings", "group", "partners"] : List String),
      w.toList.map lowerChar = w.toList := by
  intro w hw
  simp only [List.mem_cons, List.mem_singleton, List.not_mem_nil, or_false] at hw
  rcases hw with rfl | rfl | rfl
  · decide
  · decide
  · decide

lemma hgpHeadTest_iff (l : List Char) :
    hgpHeadTest l = true ↔
      ∃ w : String, w ∈ (["holdings", "group", "partners"] : List String) ∧
        ∃ mid post, l = mid ++ post ∧ mid.map lowerChar = w.toList ∧
          (post = [] ∨ ∃ d post2, post = d :: post2 ∧ isWordChar d = false) := by
  unfold hgpHeadTest
  rw [List.any_eq_true]
  constructor
  · rintro ⟨w, hw, hmatch⟩
    cases hm : matchLitCI w.toList l with
    | none => rw [hm] at hmatch; simp at hmatch
    | some rest =>
      rw [hm] at hmatch
      rcases (matchLitCI_some_iff _ _ _).mp hm with ⟨mid, hl, hmap⟩
      refine ⟨w, hw, mid, rest, hl, ?_, ?_⟩
      · rw [hmap]; exact hgpWords_lower_fixed w hw
      · cases rest with
        | nil => exact Or.inl rfl
        | cons d post2 =>
          refine Or.inr ⟨d, post2, rfl, ?_⟩
          simpa using hmatch
  · rintro ⟨w, hw, mid, post, hl, hmap, hb⟩
    refine ⟨w, hw, ?_⟩
    have hm : matchLitCI w.toList l = some post := by
      rw [matchLitCI_some_iff]
      exact ⟨mid, hl, by rw [hmap, hgpWords_lower_fixed w hw]⟩
    rw [hm]
    rcases hb with rfl | ⟨d, post2, rfl, hd⟩
    · rfl
    · simpa using hd

lemma hgpTest_iff : ∀ l : List Char,
    hgpTest l = true ↔ ∃ pre suf, l = pre ++ suf ∧ hgpHeadTest suf = true
  | [] => by
    constructor
    · intro h; simp [hgpTest] at h
    · rintro ⟨pre, suf, hl, hh⟩
      have hsuf : suf = [] := (List.append_eq_nil.mp hl.symm).2
      rw [hsuf] at hh
      exact absurd hh (by decide)
  | c :: rest => by
    rw [show hgpTest (c :: rest) = (hgpHeadTest (c :: rest) || hgpTest rest) from rfl,
      Bool.or_eq_true, hgpTest_iff rest]
    constructor
    · rintro (h | ⟨pre, suf, hl, hh⟩)
      · exact ⟨[], c :: rest, rfl, h⟩
      · exact ⟨c :: pre, suf, by simp [hl], hh⟩
    · rintro ⟨pre, suf, hl, hh⟩
      cases pre with
      | nil =>
        left
        simp only [List.nil_append] at hl
        rw [← hl] at hh
        exact hh
      | cons a as =>
        right
        simp only [List.cons_append, List.cons.injEq] at hl
        exact ⟨as, suf, hl.2, hh⟩

lemma hgpTest_iff_occurs (l : List Char) : hgpTest l = true ↔ HgpOccurs l := by
  rw [hgpTest_iff]
  constructor
  · rintro ⟨pre, suf, hl, hh⟩
    rcases (hgpHeadTest_iff suf).mp hh with ⟨w, hw, mid, post, hsuf, hmap, hb⟩
    exact ⟨w, hw, pre, mid, post, by simp [hl, hsuf, List.append_assoc], hmap, hb⟩
  · rintro ⟨w, hw, pre, mid, post, hl, hmap, hb⟩
    refine ⟨pre, mid ++ post, by simp [hl, List.append_assoc], ?_⟩
    rw [hgpHeadTest_iff]
    exact ⟨w, hw, mid, post, rfl, hmap, hb⟩

lemma nonPossSTest_iff : ∀ l : List Char,
    nonPossSTest l = true ↔ NonPossSOccurs l
  | [] => by
    constructor
    · intro h; simp [nonPossSTest] at h
    · rintro ⟨pre, c, s, post, hl, -, -, -⟩
      exact absurd hl.symm (by simp)
  | [x] => by
    constructor
    · intro h; simp [nonPossSTest] at h
    · rintro ⟨pre, c, s, post, hl, -, -, -⟩
      have := congrArg List.length hl
      simp [List.length_append] at this
      omega
  | c :: d :: rest => by
    rw [show nonPossSTest (c :: d :: rest)
        = (((c ≠ '\'' && (d = 's' || d = 'S')) &&
            (match rest with | [] => true | e :: _ => !isWordChar e))
          || nonPossSTest (d :: rest)) from rfl,
      Bool.or_eq_true, nonPossSTest_iff (d :: rest)]
    constructor
    · rintro (h | ⟨pre, c', s', post, hl, hc, hs, hb⟩)
      · simp only [Bool.and_eq_true, decide_eq_true_eq, Bool.or_eq_true] at h
        refine ⟨[], c, d, rest, rfl, h.1.1, h.1.2, ?_⟩
        cases rest with
        | nil => exact Or.inl rfl
        | cons e rest2 =>
          refine Or.inr ⟨e, rest2, rfl, ?_⟩
          simpa using h.2
      · exact ⟨c :: pre, c', s', post, by simp [hl], hc, hs, hb⟩
    · rintro ⟨pre, c', s', post, hl, hc, hs, hb⟩
      cases pre with
      | nil =>
        left
        simp only [List.nil_append, List.cons.injEq] at hl
        rcases hl with ⟨rfl, rfl, rfl⟩
        simp only [Bool.and_eq_true, decide_eq_true_eq, Bool.or_eq_true]
        refine ⟨⟨hc, hs⟩, ?_⟩
        rcases hb with rfl | ⟨e, post2, rfl, he⟩
        · simp
        · simpa using he
      | cons a as =>
        right
        simp only [List.cons_append, List.cons.injEq] at hl
        exact ⟨as, c', s', post, hl.2, hc, hs, hb⟩

/-- Modelled from the spec's words for claim C7: the name "contains a token
ending in s not immediately preceded by an apostrophe" — some `s`/`S` ends a
token (no following character, or a non-word character follows) and the
character immediately before it, if there is one, is not an apostrophe. -/
def specTokenScan : Option Char → List Char → Bool
  | _, [] => false
  | prev, c :: rest =>
    ((c = 's' || c = 'S') &&
      (match rest with | [] => true | d :: _ => !isWordChar d) &&
      prev ≠ some '\'')
    || specTokenScan (some c) rest

/-- Modelled from the spec's words for claim C7 (see `specTokenScan`). -/
def specTokenEndsInS (name : String) : Bool := specTokenScan none name.toList

lemma pronounsFor_eq (name : String) :
    pronounsFor name
      = if (hgpTest name.toList || nonPossSTest name.toList) = true
        then ["they", "their", "themselves"] else ["it", "its", "itself"] := rfl

/-- C5: for the party `{name: "Acme Inc", role: "Client"}`,
`buildTerms(name, buildAliases(party), pronounsFor(name))` is exactly the 13
distinct terms `Acme Inc`, `Acme Inc's`, `Client`, `the Client`, `CLIENT`,
`the CLIENT`, `Client's`, `the Client's`, `CLIENT's`, `the CLIENT's`, `it`,
`its`, `itself`, with no duplicates; and in general `buildTerms` returns a
deduplicated list of trimmed strings with empty strings excluded. -/
theorem C5_buildTerms_acme_client :
    List.Perm
      (buildTerms ("Acme Inc") (buildAliases ⟨"Acme Inc", some "Client"⟩)
        (pronounsFor ("Acme Inc")))
      ["Acme Inc", "Acme Inc's", "Client", "the Client", "CLIENT", "the CLIENT",
       "Client's", "the Client's", "CLIENT's", "the CLIENT's", "it", "its", "itself"] ∧
    (∀ (name : String) (aliases pronouns : List String),
      (buildTerms name aliases pronouns).Nodup ∧
        ∀ x ∈ buildTerms name aliases pronouns, jsTrim x = x ∧ x ≠ "") := by
  refine ⟨by decide, fun name aliases pronouns => ?_⟩
  exact goodTerms_buildTerms name aliases pronouns

/-- Witness for C5: the theorem applied to the concrete party name
`Acme Inc` as a member of its own term list. -/
theorem C5_buildTerms_acme_client_witness :
    jsTrim ("Acme Inc") = "Acme Inc" ∧ ("Acme Inc" : String) ≠ "" :=
  (C5_buildTerms_acme_client.2 ("Acme Inc") [] []).2 ("Acme Inc") (by decide)

/-- C7 fails as stated on the one-character name `s`: that name contains a
token ending in `s` with no preceding character (hence not immediately
preceded by an apostrophe), and it does not match
`/(holdings|group|partners)\b/i`, so the claim's rule selects the plural set,
yet `pronounsFor` returns the singular set — the source regex `/[^']s\b/i`
requires a character before the `s`. -/
theorem C7_pronouns_counterexample :
    specTokenEndsInS ("s") = true ∧ hgpTest (String.toList "s") = false ∧
      pronounsFor ("s") = ["it", "its", "itself"] ∧
      pronounsFor ("s") ≠ ["they", "their", "themselves"] := by decide

/-- C7 (amended): `pronounsFor` returns exactly one of two fixed sets for
every name: the plural set `{they, their, themselves}` when the name matches
`/(holdings|group|partners)\b/i` or contains a character other than an
apostrophe immediately followed by a token-final `s`/`S` (so the `s` must
have a preceding character; a name whose bare `s` opens the string selects
the singular set), and otherwise the singular set `{it, its, itself}`; in
particular `pronounsFor "Acme Holdings"` is the plural set and
`pronounsFor "Acme Inc"` the singular one. -/
theorem C7_pronouns_amended (name : String) :
    (pronounsFor name = ["they", "their", "themselves"] ∨
      pronounsFor name = ["it", "its", "itself"]) ∧
    (pronounsFor name = ["they", "their", "themselves"] ↔
      HgpOccurs name.toList ∨ NonPossSOccurs name.toList) ∧
    pronounsFor ("Acme Holdings") = ["they", "their", "themselves"] ∧
    pronounsFor ("Acme Inc") = ["it", "its", "itself"] := by
  refine ⟨?_, ?_, by decide, by decide⟩
  · rw [pronounsFor_eq]
    by_cases h : (hgpTest name.toList || nonPossSTest name.toList) = true
    · rw [if_pos h]; exact Or.inl rfl
    · rw [if_neg h]; exact Or.inr rfl
  · rw [pronounsFor_eq]
    by_cases h : (hgpTest name.toList || nonPossSTest name.toList) = true
    · rw [if_pos h]
      simp only [true_iff]
      rcases (Bool.or_eq_true _ _).mp h with h1 | h1
      · exact Or.inl ((hgpTest_iff_occurs name.toList).mp h1)
      · exact Or.inr ((nonPossSTest_iff name.toList).mp h1)
    · rw [if_neg h]
      constructor
      · intro he
        exact absurd he (by decide)
      · rintro (ho | ho)
        · exact absurd ((Bool.or_eq_true _ _).mpr
            (Or.inl ((hgpTest_iff_occurs name.toList).mpr ho))) h
        · exact absurd ((Bool.or_eq_true _ _).mpr
            (Or.inr ((nonPossSTest_iff name.toList).mpr ho))) h

/-- C8: `makePossessive` appends `'s` to a non-empty string unless it already
ends in `s`/`S`, in which case it appends only `'`; `makePossessive "Acme" =
"Acme's"` and `makePossessive "Holdings" = "Holdings'"`; and `buildTerms`
feeds the name and every alias, each together with its `makePossessive` form,
but the pronouns without any possessive form, into the ordered term set. -/
theorem C8_makePossessive_rule :
    makePossessive ("Acme") = "Acme's" ∧ makePossessive ("Holdings") = "Holdings'" ∧
    (∀ s : String, s ≠ "" →
      ((s.toList.getLast? = some 's' ∨ s.toList.getLast? = some 'S') →
        makePossessive s = s ++ "'") ∧
      (¬(s.toList.getLast? = some 's' ∨ s.toList.getLast? = some 'S') →
        makePossessive s = s ++ "'s")) ∧
    (∀ (n : String) (al pr : List String),
      buildTerms n al pr
        = (([n, makePossessive n] ++ (al.flatMap fun a => [a, makePossessive a]) ++ pr).foldl
            addTerm [])) := by
  refine ⟨by decide, by decide, fun s hs => ⟨fun h => ?_, fun h => ?_⟩,
    buildTerms_generators⟩
  · unfold makePossessive
    rw [if_neg hs, if_pos h]
  · unfold makePossessive
    rw [if_neg hs, if_neg h]

/-- Witness for C8: the theorem applied to the non-empty strings `x` and
`Holdings`. -/
theorem C8_makePossessive_rule_witness :
    makePossessive ("x") = "x's" ∧ makePossessive ("Bis") = "Bis'" := by
  constructor
  · have h := (C8_makePossessive_rule.2.2.1 ("x") (by decide)).2 (by decide)
    simpa using h
  · have h := (C8_makePossessive_rule.2.2.1 ("Bis") (by decide)).1 (by decide)
    simpa using h


/-! ### Party de-duplication (taskpane.ts lines 182–197) -/

/-- `equalName` (taskpane.ts line 182): case-insensitive comparison of
trimmed names. -/
def equalName (a b : String) : Bool := jsLower (jsTrim a) = jsLower (jsTrim b)

/-- The normalized identity key of a party
(`p.name.trim().toLowerCase()`, taskpane.ts line 190). -/
def partyKey (p : Party) : String := jsLower (jsTrim p.name)

/-- The loop of `dedupeParties` (taskpane.ts lines 186–197): `seen` is the
set of keys already kept, `out` the output so far. -/
def dedupePartiesGo : List String → List Party → List Party → List Party
  | _, out, [] => out
  | seen, out, p :: rest =>
    if partyKey p ∈ seen then dedupePartiesGo seen out rest
    else dedupePartiesGo (partyKey p :: seen) (out ++ [p]) rest

/-- `dedupeParties` (taskpane.ts lines 186–197). -/
def dedupeParties (arr : List Party) : List Party := dedupePartiesGo [] [] arr

lemma dedupePartiesGo_spec :
    ∀ (rest : List Party) (seen : List String) (out : List Party),
      (∀ p ∈ out, partyKey p ∈ seen) →
      out.Pairwise (fun p q => partyKey p ≠ partyKey q) →
      ((dedupePartiesGo seen out rest).Pairwise
          (fun p q => partyKey p ≠ partyKey q) ∧
        ∃ sub, dedupePartiesGo seen out rest = out ++ sub ∧ List.Sublist sub rest)
  | [], seen, out, _, hpw => ⟨hpw, [], by simp [dedupePartiesGo], List.nil_sublist []⟩
  | p :: rest, seen, out, hseen, hpw => by
    rw [show dedupePartiesGo seen out (p :: rest)
        = if partyKey p ∈ seen then dedupePartiesGo seen out rest
          else dedupePartiesGo (partyKey p :: seen) (out ++ [p]) rest from rfl]
    by_cases hk : partyKey p ∈ seen
    · rw [if_pos hk]
      rcases dedupePartiesGo_spec rest seen out hseen hpw with ⟨h1, sub, h2, h3⟩
      exact ⟨h1, sub, h2, h3.cons p⟩
    · rw [if_neg hk]
      have hseen' : ∀ q ∈ out ++ [p], partyKey q ∈ partyKey p :: seen := by
        intro q hq
        rcases List.mem_append.mp hq with hq | hq
        · exact List.mem_cons_of_mem _ (hseen q hq)
        · rcases List.mem_singleton.mp hq with rfl
          exact List.mem_cons_self _ _
      have hpw' : (out ++ [p]).Pairwise (fun p q => partyKey p ≠ partyKey q) := by
        rw [List.pairwise_append]
        refine ⟨hpw, List.pairwise_singleton _ _, ?_⟩
        intro a ha b hb
        rcases List.mem_singleton.mp hb with rfl
        intro he
        exact hk (he ▸ hseen a ha)
      rcases dedupePartiesGo_spec rest (partyKey p :: seen) (out ++ [p]) hseen' hpw'
        with ⟨h1, sub, h2, h3⟩
      exact ⟨h1, p :: sub, by simpa using h2, h3.cons₂ p⟩

/-- C9: `dedupeParties` removes duplicates by case-insensitive, trimmed name,
keeping the first occurrence (with its role): on
`[{name:"Acme"}, {name:"ACME"}, {name:"Beta"}]` it returns exactly
`[{name:"Acme"}, {name:"Beta"}]`, and in general the output is a sublist of
the input containing no two parties with equal trimmed lower-cased names. -/
theorem C9_dedupeParties_nodup :
    dedupeParties [⟨"Acme", none⟩, ⟨"ACME", none⟩, ⟨"Beta", none⟩]
      = [⟨"Acme", none⟩, ⟨"Beta", none⟩] ∧
    (∀ arr : List Party,
      (dedupeParties arr).Pairwise
          (fun p q => jsLower (jsTrim p.name) ≠ jsLower (jsTrim q.name)) ∧
        List.Sublist (dedupeParties arr) arr) := by
  refine ⟨by decide, fun arr => ?_⟩
  rcases dedupePartiesGo_spec arr [] [] (by simp) List.Pairwise.nil with ⟨h1, sub, h2, h3⟩
  refine ⟨h1, ?_⟩
  rw [show dedupeParties arr = dedupePartiesGo [] [] arr from rfl, h2]
  simpa using h3

/-! ### Search options (taskpane.ts lines 275–287) -/

/-- The options object handed to `body.search` (taskpane.ts lines 280–284);
a flag the source does not set is the host's default `false`. -/
structure SearchOpts where
  matchCase : Bool
  matchWholeWord : Bool
  ignorePunct : Bool := false
  ignoreSpace : Bool := false
deriving DecidableEq, Repr

/-- The options built by `searchAndHighlight` for one term
(taskpane.ts lines 280–284): case-insensitive always, whole-word as passed,
tolerant flags exactly when the term is longer than 3 characters. -/
def searchOptsFor (term : String) (wholeWord : Bool) : SearchOpts :=
  if term.length > 3 then
    { matchCase := false, matchWholeWord := wholeWord,
      ignorePunct := true, ignoreSpace := true }
  else
    { matchCase := false, matchWholeWord := wholeWord }

/-- The `wholeWord` argument `onNext` passes to `searchAndHighlight` for one
term: `!isPossessive(term)` (taskpane.ts line 235). -/
def onNextWholeWord (term : String) : Bool := !isPossessive term

/-- C6: every search issued by the marker is case-insensitive; whole-word is
true exactly for non-possessive terms (a possessive such as `Acme's` is
searched as a fragment); and the punctuation- and spacing-ignoring options
are enabled exactly when the term is longer than 3 characters. -/
theorem C6_search_options (term : String) :
    (searchOptsFor term (onNextWholeWord term)).matchCase = false ∧
    ((searchOptsFor term (onNextWholeWord term)).matchWholeWord = true ↔
      isPossessive term = false) ∧
    ((searchOptsFor term (onNextWholeWord term)).ignorePunct = true ↔
      term.length > 3) ∧
    ((searchOptsFor term (onNextWholeWord term)).ignoreSpace = true ↔
      term.length > 3) ∧
    isPossessive ("Acme's") = true ∧
    (searchOptsFor ("Acme's") (onNextWholeWord ("Acme's"))).matchWholeWord = false := by
  by_cases h : term.length > 3
  · simp [searchOptsFor, onNextWholeWord, h, Bool.not_eq_true']
    decide
  · simp [searchOptsFor, onNextWholeWord, h, Bool.not_eq_true']
    decide

/-! ### Batched marking (taskpane.ts lines 21–24, 275–332) -/

set_option maxRecDepth 8192

/-- `BATCH_SIZE` (taskpane.ts line 23). -/
def BATCH_SIZE : Nat := 60

/-- `PRONOUN_HIT_CAP` (taskpane.ts line 24). -/
def PRONOUN_HIT_CAP : Nat := 250

/-- One batch (taskpane.ts lines 302–327): try to annotate the whole slice
in one commit; the commit fails when any range in the slice fails, and the
fallback then commits one range at a time, skipping (without retry) each
range that still fails.  Returns the ranges successfully annotated. -/
def batchApply {α : Type} (ok : α → Bool) (slice : List α) : List α :=
  if slice.all ok then slice else slice.filter ok

/-- The batch loop (taskpane.ts lines 296–328) written with structural fuel
(the fuel never runs out: each turn consumes at least one range). -/
def batchLoopGo {α : Type} (ok : α → Bool) : Nat → List α → List α
  | _, [] => []
  | 0, _ :: _ => []
  | fuel + 1, x :: rest =>
    batchApply ok ((x :: rest).take BATCH_SIZE)
      ++ batchLoopGo ok fuel ((x :: rest).drop BATCH_SIZE)

/-- The batch loop: the match list is traversed from the last match to the
first (the loop runs over the reversed list), in slices of at most
`BATCH_SIZE` ranges. -/
def batchLoop {α : Type} (ok : α → Bool) (l : List α) : List α :=
  batchLoopGo ok l.length l

/-- The pure core of `searchAndHighlight` (taskpane.ts lines 289–330): the
ranges the call annotates, given the search results in document order and,
for each range, whether annotating it succeeds.  The noise cap (lines
290–293) returns nothing for a term of length at most 3 with more than
`PRONOUN_HIT_CAP` hits; otherwise the hits are processed from the last
match to the first in batches. -/
def searchApplied {α : Type} (ok : α → Bool) (term : String) (results : List α) :
    List α :=
  if results.length > PRONOUN_HIT_CAP ∧ term.length ≤ 3 then []
  else batchLoop ok results.reverse

/-- The count `searchAndHighlight` returns (`applied`, taskpane.ts line 330). -/
def searchAppliedCount {α : Type} (ok : α → Bool) (term : String)
    (results : List α) : Nat :=
  (searchApplied ok term results).length

lemma batchApply_eq_filter {α : Type} (ok : α → Bool) (slice : List α) :
    batchApply ok slice = slice.filter ok := by
  unfold batchApply
  split
  · next h =>
    exact (List.filter_eq_self.mpr (by simpa [List.all_eq_true] using h)).symm
  · rfl

lemma batchLoopGo_eq_filter {α : Type} (ok : α → Bool) :
    ∀ (fuel : Nat) (l : List α), l.length ≤ fuel → batchLoopGo ok fuel l = l.filter ok
  | _, [], _ => by simp [batchLoopGo]
  | 0, x :: rest, h => by simp at h
  | fuel + 1, x :: rest, h => by
    rw [show batchLoopGo ok (fuel + 1) (x :: rest)
        = batchApply ok ((x :: rest).take BATCH_SIZE)
          ++ batchLoopGo ok fuel ((x :: rest).drop BATCH_SIZE) from rfl,
      batchApply_eq_filter,
      batchLoopGo_eq_filter ok fuel ((x :: rest).drop BATCH_SIZE)
        (by simp only [List.length_drop, List.length_cons, BATCH_SIZE] at h ⊢; omega),
      ← List.filter_append, List.take_append_drop]

lemma batchLoop_eq_filter {α : Type} (ok : α → Bool) (l : List α) :
    batchLoop ok l = l.filter ok :=
  batchLoopGo_eq_filter ok l.length l le_rfl

/-- C3: if a term has length at most 3 and the search returns strictly more
than 250 matches, `searchAndHighlight` annotates nothing and returns 0 (the
term is skipped, not retried); a term longer than 3 characters is never
capped, and all its matches are processed whatever the hit count — e.g. a
length-5 term with 300 all-accepted matches yields 300. -/
theorem C3_noise_cap {α : Type} (ok : α → Bool) (term : String) (results : List α) :
    (term.length ≤ 3 → results.length > PRONOUN_HIT_CAP →
      searchApplied ok term results = [] ∧ searchAppliedCount ok term results = 0) ∧
    (term.length > 3 →
      searchApplied ok term results = results.reverse.filter ok) ∧
    searchAppliedCount (fun _ => true) ("abcde") (List.replicate 300 (0 : Nat)) = 300 := by
  refine ⟨fun h3 hcap => ?_, fun h3 => ?_, ?_⟩
  · have hc : results.length > PRONOUN_HIT_CAP ∧ term.length ≤ 3 := ⟨hcap, h3⟩
    constructor
    · rw [searchApplied, if_pos hc]
    · rw [searchAppliedCount, searchApplied, if_pos hc]
      rfl
  · have hc : ¬(results.length > PRONOUN_HIT_CAP ∧ term.length ≤ 3) := by
      rintro ⟨-, hle⟩; omega
    rw [searchApplied, if_neg hc, batchLoop_eq_filter]
  · rw [searchAppliedCount, searchApplied, if_neg (by decide), batchLoop_eq_filter]
    simp

/-- Witness for C3: a length-2 term (`it`) with 300 matches yields zero
annotated ranges and count 0, by the theorem applied at that input. -/
theorem C3_noise_cap_witness :
    searchApplied (fun _ => true) ("it") (List.replicate 300 (0 : Nat)) = [] ∧
      searchAppliedCount (fun _ => true) ("it") (List.replicate 300 (0 : Nat)) = 0 :=
  (C3_noise_cap (fun _ => true) ("it") (List.replicate 300 (0 : Nat))).1
    (by decide) (by decide)

/-- C4: under the noise cap's negation, the marker processes the matches from
the last to the first in batches of at most `BATCH_SIZE` (60); a batch whose
ranges all succeed is committed whole, otherwise each range is committed
alone and the failing ones are skipped without being counted; the returned
number is exactly the count of successfully annotated ranges — in
particular, 60 ranges of which one fails yield 59. -/
theorem C4_batch_fallback {α : Type} (ok : α → Bool) (term : String)
    (results : List α)
    (hnc : ¬(results.length > PRONOUN_HIT_CAP ∧ term.length ≤ 3)) :
    searchApplied ok term results = results.reverse.filter ok ∧
    searchAppliedCount ok term results = (results.filter ok).length ∧
    (∀ slice : List α,
      batchApply ok slice = if slice.all ok then slice else slice.filter ok) ∧
    searchAppliedCount (fun r => decide (r ≠ 30)) ("batchterm") (List.range 60) = 59 := by
  refine ⟨?_, ?_, fun _ => rfl, by decide⟩
  · rw [searchApplied, if_neg hnc, batchLoop_eq_filter]
  · rw [searchAppliedCount, searchApplied, if_neg hnc, batchLoop_eq_filter]
    simp

/-- Witness for C4: the theorem applied to 60 concrete ranges of which
exactly one (range 30) fails: 59 are annotated and 59 is reported. -/
theorem C4_batch_fallback_witness :
    searchAppliedCount (fun r => decide (r ≠ 30)) ("batchterm") (List.range 60)
      = ((List.range 60).filter (fun r => decide (r ≠ 30))).length :=
  (C4_batch_fallback (fun r => decide (r ≠ 30)) ("batchterm") (List.range 60)
    (by decide)).2.1

/-! ### The whole-party highlight operation (taskpane.ts lines 16–19, 211–266) -/

/-- `TAG` (taskpane.ts line 16). -/
def TAG : String := "AI_PARTY_HL"

/-- `HIGHLIGHT_COLOR` (taskpane.ts line 19). -/
def HIGHLIGHT_COLOR : String := "Turquoise"

/-- A content control wrapping a document range (identified by its position),
with its tag and highlight colour. -/
structure ContentControl where
  range : Nat
  tag : String
  color : Option String
deriving DecidableEq, Repr

/-- The modelled Word document: its text and the content controls present.
Inserting a content control, or deleting one while keeping its content
(`delete(true)`), leaves the text unchanged. -/
structure Doc where
  text : String
  controls : List ContentControl
deriving DecidableEq, Repr

/-- `clearPartyHighlights` (taskpane.ts lines 253–266): delete every content
control carrying `TAG` (clearing its highlight), keeping the underlying
text. -/
def clearPartyHighlights (d : Doc) : Doc :=
  { d with controls := d.controls.filter (fun cc => cc.tag ≠ TAG) }

/-- The content control inserted on one annotated range
(taskpane.ts lines 305–307 and 317–319): tagged `TAG`, highlighted. -/
def mkMark (r : Nat) : ContentControl :=
  { range := r, tag := TAG, color := some HIGHLIGHT_COLOR }

/-- `searchAndHighlight` (taskpane.ts lines 275–332) at document level:
search the body, apply the noise cap and the batch loop, and wrap each
successfully annotated range in a tagged, highlighted content control.
`search` is the host's search (deterministic in the text, the term and the
options), `ok` tells which range annotations the host accepts. -/
def searchAndHighlightDoc (search : String → String → SearchOpts → List Nat)
    (ok : Nat → Bool) (d : Doc) (term : String) (wholeWord : Bool) : Doc × Nat :=
  let applied := searchApplied ok term (search d.text term (searchOptsFor term wholeWord))
  ({ d with controls := d.controls ++ applied.map mkMark }, applied.length)

/-- The term list `onNext` iterates (taskpane.ts line 227): the built terms
sorted by descending length, a stable merge sort standing in for
JavaScript's stable `Array.prototype.sort`. -/
def onNextTerms (party : Party) : List String :=
  (buildTerms party.name (buildAliases party) (pronounsFor party.name)).mergeSort
    (fun a b => b.length ≤ a.length)

/-- `onNext` (taskpane.ts lines 211–241) for a selected party: clear this
engine's highlights first, then search-and-highlight every term, summing the
returned counts. -/
def onNext (search : String → String → SearchOpts → List Nat) (ok : Nat → Bool)
    (party : Party) (d : Doc) : Doc × Nat :=
  (onNextTerms party).foldl
    (fun acc term =>
      let r := searchAndHighlightDoc search ok acc.1 term (onNextWholeWord term)
      (r.1, acc.2 + r.2))
    (clearPartyHighlights d, 0)

/-- The content controls the term loop of `onNext` adds for a fixed document
text. -/
def termsMarks (search : String → String → SearchOpts → List Nat)
    (ok : Nat → Bool) (text : String) : List String → List ContentControl
  | [] => []
  | t :: rest =>
    (searchApplied ok t (search text t (searchOptsFor t (onNextWholeWord t)))).map mkMark
      ++ termsMarks search ok text rest

lemma onNextFold_spec (search : String → String → SearchOpts → List Nat)
    (ok : Nat → Bool) :
    ∀ (terms : List String) (d : Doc) (c0 : Nat),
      terms.foldl
          (fun acc term =>
            let r := searchAndHighlightDoc search ok acc.1 term (onNextWholeWord term)
            (r.1, acc.2 + r.2))
          (d, c0)
        = ({ text := d.text,
             controls := d.controls ++ termsMarks search ok d.text terms },
            c0 + (termsMarks search ok d.text terms).length)
  | [], d, c0 => by simp [termsMarks]
  | t :: rest, d, c0 => by
    rw [List.foldl_cons]
    show (rest.foldl _ (searchAndHighlightDoc search ok d t (onNextWholeWord t) |>.1,
      c0 + (searchAndHighlightDoc search ok d t (onNextWholeWord t)).2)) = _
    rw [onNextFold_spec search ok rest]
    simp only [searchAndHighlightDoc, termsMarks]
    refine congrArg₂ Prod.mk ?_ ?_
    · simp [List.append_assoc]
    · simp only [List.length_append, List.length_map]
      omega

lemma onNext_spec (search : String → String → SearchOpts → List Nat)
    (ok : Nat → Bool) (party : Party) (d : Doc) :
    onNext search ok party d
      = ({ text := d.text,
           controls := d.controls.filter (fun cc => cc.tag ≠ TAG)
             ++ termsMarks search ok d.text (onNextTerms party) },
          (termsMarks search ok d.text (onNextTerms party)).length) := by
  rw [onNext, onNextFold_spec search ok (onNextTerms party) (clearPartyHighlights d) 0]
  simp [clearPartyHighlights]

lemma termsMarks_tag (search : String → String → SearchOpts → List Nat)
    (ok : Nat → Bool) (text : String) :
    ∀ terms : List String, ∀ cc ∈ termsMarks search ok text terms, cc.tag = TAG
  | [], cc, h => by simp [termsMarks] at h
  | t :: rest, cc, h => by
    rw [termsMarks] at h
    rcases List.mem_append.mp h with h | h
    · rcases List.mem_map.mp h with ⟨r, -, rfl⟩
      rfl
    · exact termsMarks_tag search ok text rest cc h

lemma filter_nonTag_append_marks (l : List ContentControl)
    (marks : List ContentControl) (hm : ∀ cc ∈ marks, cc.tag = TAG) :
    (l.filter (fun cc => cc.tag ≠ TAG) ++ marks).filter (fun cc => cc.tag ≠ TAG)
      = l.filter (fun cc => cc.tag ≠ TAG) := by
  rw [List.filter_append]
  have h1 : (l.filter (fun cc => cc.tag ≠ TAG)).filter (fun cc => cc.tag ≠ TAG)
      = l.filter (fun cc => cc.tag ≠ TAG) := by
    apply List.filter_eq_self.mpr
    intro cc hcc
    exact (List.mem_filter.mp hcc).2
  have h2 : marks.filter (fun cc => cc.tag ≠ TAG) = [] := by
    apply List.filter_eq_nil_iff.mpr
    intro cc hcc
    simp [hm cc hcc]
  rw [h1, h2, List.append_nil]

/-- C2: the whole-party highlight operation clears every `TAG` annotation
first and only then re-applies; for a fixed document and party, running it
twice yields the same final document (hence the same annotated-range set)
and the same total count as running it once, and clearing afterwards (the
document effect of reset) leaves zero engine annotations. -/
theorem C2_onNext_idempotent (search : String → String → SearchOpts → List Nat)
    (ok : Nat → Bool) (party : Party) (d : Doc) :
    onNext search ok party ((onNext search ok party d).1)
        = onNext search ok party d ∧
    (clearPartyHighlights ((onNext search ok party d).1)).controls.countP
        (fun cc => cc.tag = TAG) = 0 := by
  have hm := termsMarks_tag search ok d.text (onNextTerms party)
  have hfix := filter_nonTag_append_marks d.controls
    (termsMarks search ok d.text (onNextTerms party)) hm
  constructor
  · rw [onNext_spec search ok party d, onNext_spec]
    refine congrArg₂ Prod.mk ?_ ?_
    · show ({ text := _, controls := _ } : Doc) = _
      simp only [hfix]
    · simp only [hfix]
  · rw [onNext_spec, clearPartyHighlights]
    simp only []
    rw [List.countP_eq_zero]
    intro cc hcc
    rcases List.mem_append.mp ((List.mem_filter.mp hcc).1) with h | h
    · have := (List.mem_filter.mp h).2
      simpa using (List.mem_filter.mp hcc).2
    · simpa [hm cc h] using (List.mem_filter.mp hcc).2

/-! ### Party detection (taskpane.ts lines 379–439)

The JavaScript regular expressions are translated into explicit match
functions with the engine's leftmost-first semantics, greedy (`\s+`, `\.?`)
and lazy (`.{2,140}?`) quantifier preferences, and ordered alternation.
Where an alternation or quantifier choice cannot affect the outcome (the
following context rules the other branch out), the function commits, as the
backtracking engine effectively does. -/

/-- JavaScript `.` (no `s` flag): any character except a line terminator. -/
def dotChar (c : Char) : Bool :=
  !(c = '\n' || c = '\r' || c = Char.ofNat 0x2028 || c = Char.ofNat 0x2029)

/-- `\b` before a word character: the previous character is absent or not a
word character.  (All uses below stand before a literal word character.) -/
def wordBoundaryBefore (prev : Option Char) : Bool :=
  match prev with
  | none => true
  | some c => !isWordChar c

/-- Greedy `\s+` with backtracking, after at least one whitespace character
has been consumed: prefer consuming more, fall back to the continuation. -/
def spacesPlusAux {α : Type} (k : List Char → Option α) : List Char → Option α
  | [] => k []
  | c :: cs =>
    if jsSpace c then
      match spacesPlusAux k cs with
      | some r => some r
      | none => k (c :: cs)
    else k (c :: cs)

/-- Greedy `\s+` with backtracking into the continuation `k`. -/
def spacesPlus {α : Type} (k : List Char → Option α) : List Char → Option α
  | [] => none
  | c :: cs => if jsSpace c then spacesPlusAux k cs else none

/-- Lazy bounded character-class repetition `cls{lo,hi}?` with backtracking:
`k` receives the captured characters and the remaining input; shorter
captures are preferred. -/
def classLazy {α : Type} (cls : Char → Bool) (k : List Char → List Char → Option α) :
    Nat → Nat → List Char → List Char → Option α
  | 0, lo, l, acc => if lo = 0 then k acc.reverse l else none
  | hi + 1, lo, l, acc =>
    if lo = 0 then
      match k acc.reverse l with
      | some r => some r
      | none =>
        match l with
        | [] => none
        | c :: cs => if cls c then classLazy cls k hi 0 cs (c :: acc) else none
    else
      match l with
      | [] => none
      | c :: cs => if cls c then classLazy cls k hi (lo - 1) cs (c :: acc) else none

/-- The terminator class `[\.;,\n]` of the recital pattern. -/
def recTermChar (c : Char) : Bool := c = '.' || c = ';' || c = ',' || c = '\n'

/-- The part of the recital pattern after `between`:
`\s+(.{2,140}?)\s+and\s+(.{2,140}?)[\.;,\n]` (case-insensitive `and`). -/
def recitalAfterBetween (l : List Char) : Option (List Char × List Char) :=
  spacesPlus (fun r1 =>
    classLazy dotChar (fun capA r2 =>
      spacesPlus (fun r3 =>
        match matchLitCI ("and".toList) r3 with
        | none => none
        | some r4 =>
          spacesPlus (fun r5 =>
            classLazy dotChar (fun capB r6 =>
              match r6 with
              | c :: _ => if recTermChar c then some (capA, capB) else none
              | [] => none) 140 2 r5 []) r4) r2) 140 2 r1 []) l

/-- The recital pattern tried with the leading `between` only (the
`(?:by and )?` group skipped). -/
def tryBetweenOnly (l : List Char) : Option (List Char × List Char) :=
  match matchLitCI ("between".toList) l with
  | some r2 => recitalAfterBetween r2
  | none => none

/-- The recital pattern `\b(?:by and )?between…` tried at one position:
the optional `by and ` branch first, then without it. -/
def tryRecitalAt (prev : Option Char) (l : List Char) : Option (List Char × List Char) :=
  if wordBoundaryBefore prev then
    match matchLitCI ("by and ".toList) l with
    | some r =>
      match matchLitCI ("between".toList) r with
      | some r2 =>
        match recitalAfterBetween r2 with
        | some res => some res
        | none => tryBetweenOnly l
      | none => tryBetweenOnly l
    | none => tryBetweenOnly l
  else none

/-- Leftmost match of the recital pattern. -/
def recitalScan : Option Char → List Char → Option (List Char × List Char)
  | _, [] => none
  | prev, c :: cs =>
    match tryRecitalAt prev (c :: cs) with
    | some res => some res
    | none => recitalScan (some c) cs

/-- `t.match(/\b(?:by and )?between\s+(.{2,140}?)\s+and\s+(.{2,140}?)[\.;,\n]/i)`
(taskpane.ts line 384): the two captures of the first match. -/
def recitalMatch (t : String) : Option (String × String) :=
  match recitalScan none t.toList with
  | some (a, b) => some (String.mk a, String.mk b)
  | none => none

/-- `/\r\n?/g → "\n"` (taskpane.ts line 438). -/
def normCR : List Char → List Char
  | [] => []
  | '\r' :: '\n' :: rest => '\n' :: normCR rest
  | '\r' :: rest => '\n' :: normCR rest
  | c :: rest => c :: normCR rest

/-- `/[ \t]+/g → " "` (taskpane.ts line 438): `skipping` is true inside a
run whose first character was already replaced. -/
def collapseSpTabGo (skipping : Bool) : List Char → List Char
  | [] => []
  | c :: rest =>
    if c = ' ' || c = '\t' then
      if skipping then collapseSpTabGo true rest
      else ' ' :: collapseSpTabGo true rest
    else c :: collapseSpTabGo false rest

/-- `normalizeSpaces` (taskpane.ts lines 437–439). -/
def normalizeSpaces (s : String) : String :=
  jsTrim (String.mk (collapseSpTabGo false (normCR s.toList)))

/-- The tail check of `/\b(?:by and )?between\b/i`: `between` followed by a
word boundary. -/
def betweenWordTail (r : List Char) : Option (List Char) :=
  match matchLitCI ("between".toList) r with
  | some r2 =>
    match r2 with
    | [] => some r2
    | d :: _ => if isWordChar d then none else some r2
  | none => none

/-- `/\b(?:by and )?between\b/i` tried at one position. -/
def tryBetweenWordAt (prev : Option Char) (l : List Char) : Option (List Char) :=
  if wordBoundaryBefore prev then
    match matchLitCI ("by and ".toList) l with
    | some r =>
      match betweenWordTail r with
      | some r2 => some r2
      | none => betweenWordTail l
    | none => betweenWordTail l
  else none

/-- `s.replace(/\b(?:by and )?between\b/i, "")` (taskpane.ts line 423):
remove the first occurrence only. -/
def replaceBetweenWord : Option Char → List Char → List Char
  | _, [] => []
  | prev, c :: cs =>
    match tryBetweenWordAt prev (c :: cs) with
    | some rest => rest
    | none => c :: replaceBetweenWord (some c) cs

/-- The character class `[,;:\-\s]` (taskpane.ts line 424). -/
def scrubPunct (c : Char) : Bool :=
  c = ',' || c = ';' || c = ':' || c = '-' || jsSpace c

/-- `/\s{2,}/g → " "` (taskpane.ts line 425): a run of two or more
whitespace characters becomes one space; a single whitespace character is
kept as it is. -/
def collapseWS2Go (skipping : Bool) : List Char → List Char
  | [] => []
  | c :: rest =>
    if skipping then
      if jsSpace c then collapseWS2Go true rest
      else c :: collapseWS2Go false rest
    else
      if jsSpace c then
        match rest with
        | [] => [c]
        | d :: _ =>
          if jsSpace d then ' ' :: collapseWS2Go true rest
          else c :: collapseWS2Go false rest
      else c :: collapseWS2Go false rest

/-- `stripQuotes` (taskpane.ts lines 429–431): remove one leading and one
trailing quote character, then trim. -/
def stripQuotes (s : String) : String :=
  let l := s.toList
  let l1 := match l with
    | c :: rest => if c = '“' || c = '"' || c = '\'' then rest else l
    | [] => l
  let l2 := match l1.getLast? with
    | some c => if c = '”' || c = '"' || c = '\'' then l1.dropLast else l1
    | none => l1
  jsTrim (String.mk l2)

/-- `scrubName` (taskpane.ts lines 422–427). -/
def scrubName (s : String) : String :=
  stripQuotes (String.mk (collapseWS2Go false
    (dropLastWhile scrubPunct
      ((replaceBetweenWord none s.toList).dropWhile scrubPunct))))

/-- One alternative of the role vocabulary tried at a position: the captured
characters as they stand in the text, and the rest.  No role word is a
prefix of another, so committing to the first matching word is faithful. -/
def tryRoleWord : List String → List Char → Option (List Char × List Char)
  | [], _ => none
  | w :: ws, l =>
    match matchLitCI w.toList l with
    | some rest => some (l.take w.toList.length, rest)
    | none => tryRoleWord ws l

/-- The part of the role-parenthetical pattern from the opening quote:
`["“](Role…)["”]\s*\)`. -/
def roleAfterQuote (r3 : List Char) : Option (List Char × List Char) :=
  match r3 with
  | q :: r4 =>
    if q = '"' || q = '“' then
      match tryRoleWord baseRoles r4 with
      | some (cap, r5) =>
        match r5 with
        | q2 :: r6 =>
          if q2 = '"' || q2 = '”' then
            match r6.dropWhile jsSpace with
            | ')' :: r7 => some (cap, r7)
            | _ => none
          else none
        | [] => none
      | none => none
    else none
  | [] => none

/-- `/\(\s*(?:the\s+)?["“](Company|…|Partner)["”]\s*\)/i`
(taskpane.ts lines 403 and 405) tried at one position: the captured role
word as written, and the rest after the whole match.  The `\s*` runs stand
before non-space characters and the optional `the\s+` before a quote, so the
greedy choices commit. -/
def tryRoleParenAt (l : List Char) : Option (List Char × List Char) :=
  match l with
  | '(' :: r1 =>
    let r2 := r1.dropWhile jsSpace
    let r3 := match matchLitCI ("the".toList) r2 with
      | some ra =>
        match ra with
        | c :: _ => if jsSpace c then ra.dropWhile jsSpace else r2
        | [] => r2
      | none => r2
    roleAfterQuote r3
  | _ => none

/-- First match of the role-parenthetical pattern: the captured role word. -/
def roleScan : List Char → Option (List Char)
  | [] => none
  | c :: cs =>
    match tryRoleParenAt (c :: cs) with
    | some (cap, _) => some cap
    | none => roleScan cs

/-- `fragment.replace(/\(\s*(?:the\s+)?["“](?:…)["”]\s*\)/ig, "")`
(taskpane.ts line 405): remove every match, scanning left to right.  The
fuel (the input length) never runs out, since every turn consumes at least
one character. -/
def roleStripGo : Nat → List Char → List Char
  | _, [] => []
  | 0, l => l
  | fuel + 1, c :: cs =>
    match tryRoleParenAt (c :: cs) with
    | some (_, rest) => roleStripGo fuel rest
    | none => c :: roleStripGo fuel cs

/-- `titleCase` (taskpane.ts lines 433–435): `/\w\S*/g` with the first
character upper-cased and the rest of each token lower-cased. -/
def titleCaseGo : Nat → List Char → List Char
  | _, [] => []
  | 0, l => l
  | fuel + 1, c :: rest =>
    if isWordChar c then
      (upperChar c :: (rest.takeWhile (fun d => !jsSpace d)).map lowerChar)
        ++ titleCaseGo fuel (rest.dropWhile (fun d => !jsSpace d))
    else c :: titleCaseGo fuel rest

/-- `titleCase` (taskpane.ts lines 433–435). -/
def titleCase (s : String) : String :=
  String.mk (titleCaseGo s.toList.length s.toList)

/-- `extractRole` (taskpane.ts lines 402–407). -/
def extractRole (fragment : String) : Party :=
  let roleCap := roleScan fragment.toList
  let role := roleCap.map (fun cap => titleCase (String.mk cap))
  let name := jsTrim (String.mk (roleStripGo fragment.toList.length fragment.toList))
  { name := stripQuotes name, role := role }

/-- Case-sensitive match of a literal at the head of `l`. -/
def matchLitCS : List Char → List Char → Option (List Char)
  | [], rest => some rest
  | _ :: _, [] => none
  | c :: cs, r :: rs => if r = c then matchLitCS cs rs else none

/-- `L\.?L\.?C` with at least the letters matched (case-insensitive), for the
token test (taskpane.ts line 410); the trailing `\.?` cannot affect a test. -/
def dottedLLCTest (l : List Char) : Bool :=
  match l with
  | a :: rest =>
    if lowerChar a = 'l' then
      match (match rest with | '.' :: r => r | _ => rest) with
      | b :: rest2 =>
        if lowerChar b = 'l' then
          match (match rest2 with | '.' :: r => r | _ => rest2) with
          | c :: _ => lowerChar c = 'c'
          | [] => false
        else false
      | [] => false
    else false
  | [] => false

/-- The organization-suffix token test
`/(Inc\.?|Incorporated|Corp\.?|Corporation|LLC|L\.?L\.?C\.?|Ltd\.?|Limited|Holdings|Group|Partners|Company)/i`
tried at one position; for a test, an optional trailing dot is irrelevant and
`Incorporated`/`Corporation` are subsumed by their prefixes, which are kept
anyway for faithfulness. -/
def orgTokenHeadTest (l : List Char) : Bool :=
  (matchLitCI ("inc".toList) l).isSome ||
  (matchLitCI ("incorporated".toList) l).isSome ||
  (matchLitCI ("corp".toList) l).isSome ||
  (matchLitCI ("corporation".toList) l).isSome ||
  (matchLitCI ("llc".toList) l).isSome ||
  dottedLLCTest l ||
  (matchLitCI ("ltd".toList) l).isSome ||
  (matchLitCI ("limited".toList) l).isSome ||
  (matchLitCI ("holdings".toList) l).isSome ||
  (matchLitCI ("group".toList) l).isSome ||
  (matchLitCI ("partners".toList) l).isSome ||
  (matchLitCI ("company".toList) l).isSome

/-- `tokens.test(ln)` (taskpane.ts lines 410 and 414). -/
def orgTokenTest : List Char → Bool
  | [] => false
  | c :: cs => orgTokenHeadTest (c :: cs) || orgTokenTest cs

/-- A case-sensitive literal followed by a greedy optional dot, returning the
consumed characters and the rest. -/
def csWithOptDot (w : String) (l : List Char) : Option (List Char × List Char) :=
  match matchLitCS w.toList l with
  | some rest =>
    match rest with
    | '.' :: r => some (w.toList ++ ['.'], r)
    | _ => some (w.toList, rest)
  | none => none

/-- A case-sensitive literal alternative, returning the consumed characters
and the rest. -/
def csPlain (w : String) (l : List Char) : Option (List Char × List Char) :=
  match matchLitCS w.toList l with
  | some rest => some (w.toList, rest)
  | none => none

/-- `L\.?L\.?C\.?` (case-sensitive), with each optional dot greedy; skipping
a dot cannot save a failing parse (the next letter is then a dot), so the
choices commit. -/
def orgLLCDotted (l : List Char) : Option (List Char × List Char) :=
  match l with
  | 'L' :: r1 =>
    let p1 := match r1 with | '.' :: r => (['.'], r) | _ => (([] : List Char), r1)
    match p1.2 with
    | 'L' :: r3 =>
      let p2 := match r3 with | '.' :: r => (['.'], r) | _ => (([] : List Char), r3)
      match p2.2 with
      | 'C' :: r5 =>
        let p3 := match r5 with | '.' :: r => (['.'], r) | _ => (([] : List Char), r5)
        some ('L' :: p1.1 ++ 'L' :: p2.1 ++ 'C' :: p3.1, p3.2)
      | _ => none
    | _ => none
  | _ => none

/-- The organization-suffix alternation of the extraction regex
(taskpane.ts line 415), case-sensitive, alternatives in source order: the
first success is taken. -/
def orgSuffixAt (l : List Char) : Option (List Char × List Char) :=
  (csWithOptDot ("Inc") l).orElse fun _ =>
  (csPlain ("Incorporated") l).orElse fun _ =>
  (csWithOptDot ("Corp") l).orElse fun _ =>
  (csPlain ("Corporation") l).orElse fun _ =>
  (csPlain ("LLC") l).orElse fun _ =>
  (orgLLCDotted l).orElse fun _ =>
  (csWithOptDot ("Ltd") l).orElse fun _ =>
  (csPlain ("Limited") l).orElse fun _ =>
  (csPlain ("Holdings") l).orElse fun _ =>
  (csPlain ("Group") l).orElse fun _ =>
  (csPlain ("Partners") l).orElse fun _ =>
  csPlain ("Company") l

/-- The middle character class `[A-Za-z0-9&.,'’\- ]` of the extraction regex
(taskpane.ts line 415). -/
def orgMidChar (c : Char) : Bool :=
  ('A' ≤ c && c ≤ 'Z') || ('a' ≤ c && c ≤ 'z') || ('0' ≤ c && c ≤ '9') ||
  c = '&' || c = '.' || c = ',' || c = '\'' || c = '’' || c = '-' || c = ' '

/-- `/([A-Z][A-Za-z0-9&.,'’\- ]{2,80}?(?:Inc\.?|…|Company))/` tried at one
position: the capture `m[1]`. -/
def tryOrgAt (l : List Char) : Option (List Char) :=
  match l with
  | c :: rest =>
    if 'A' ≤ c && c ≤ 'Z' then
      classLazy orgMidChar (fun mid r2 =>
        match orgSuffixAt r2 with
        | some (suf, _) => some (c :: (mid ++ suf))
        | none => none) 80 2 rest []
    else none
  | [] => none

/-- Leftmost match of the organization-name extraction regex on one line. -/
def orgScan : List Char → Option (List Char)
  | [] => none
  | c :: cs =>
    match tryOrgAt (c :: cs) with
    | some cap => some cap
    | none => orgScan cs

/-- `t.split(/\n+/)` (taskpane.ts line 411): split on runs of newlines;
`inRun` is true just after a newline of the current run. -/
def splitNLGo (inRun : Bool) (acc : List Char) : List Char → List (List Char)
  | [] => [acc.reverse]
  | c :: cs =>
    if c = '\n' then
      if inRun then splitNLGo true acc cs
      else acc.reverse :: splitNLGo true [] cs
    else splitNLGo false (c :: acc) cs

/-- `findOrgNames` (taskpane.ts lines 409–420). -/
def findOrgNames (t : String) : List String :=
  let lines := (splitNLGo false [] t.toList).take 40
  dedupe (lines.foldl (fun out ln =>
    if orgTokenTest ln then
      match orgScan ln with
      | some cap => out ++ [scrubName (String.mk cap)]
      | none => out
    else out) [])

/-- The candidates contributed by the recital heuristic
(taskpane.ts lines 384–388): a scrubbed capture is pushed only when it is a
non-empty string (`if (a)`). -/
def recitalBase (t : String) : List Party :=
  match recitalMatch t with
  | none => []
  | some (ma, mb) =>
    (if scrubName ma ≠ "" then [extractRole (scrubName ma)] else []) ++
    (if scrubName mb ≠ "" then [extractRole (scrubName mb)] else [])

/-- The organization-suffix fallback loop (taskpane.ts lines 391–397): add
each org name not already present, stopping as soon as 2 candidates exist. -/
def addOrgs : List Party → List String → List Party
  | cands, [] => cands
  | cands, o :: rest =>
    let cands2 := if cands.any (fun p => equalName p.name o) then cands
                  else cands ++ [extractRole o]
    if 2 ≤ cands2.length then cands2 else addOrgs cands2 rest

/-- `detectParties` before the final `slice(0, 5)`
(taskpane.ts lines 379–399). -/
def detectCandidates (text : String) : List Party :=
  let t := normalizeSpaces text
  let base := recitalBase t
  if base.length < 2 then addOrgs base (findOrgNames t) else base

/-- `detectParties` (taskpane.ts lines 379–400). -/
def detectParties (text : String) : List Party := (detectCandidates text).take 5

lemma addOrgs_length_le :
    ∀ (orgs : List String) (cands : List Party),
      cands.length < 2 → (addOrgs cands orgs).length ≤ 2
  | [], cands, h => by rw [addOrgs]; omega
  | o :: rest, cands, h => by
    rw [addOrgs]
    by_cases hm : cands.any (fun p => equalName p.name o) = true
    · rw [if_pos hm, if_neg (by omega)]
      exact addOrgs_length_le rest cands h
    · rw [if_neg hm]
      by_cases h2 : 2 ≤ (cands ++ [extractRole o]).length
      · rw [if_pos h2]
        simp only [List.length_append, List.length_cons, List.length_nil]
        omega
      · rw [if_neg h2]
        exact addOrgs_length_le rest (cands ++ [extractRole o]) (by
          simp only [List.length_append, List.length_cons, List.length_nil] at h2 ⊢
          omega)

lemma addOrgs_extends :
    ∀ (orgs : List String) (cands : List Party),
      ∃ tail, addOrgs cands orgs = cands ++ tail
  | [], cands => ⟨[], by rw [addOrgs, List.append_nil]⟩
  | o :: rest, cands => by
    rw [addOrgs]
    by_cases hm : cands.any (fun p => equalName p.name o) = true
    · rw [if_pos hm]
      by_cases h2 : 2 ≤ cands.length
      · rw [if_pos h2]
        exact ⟨[], by rw [List.append_nil]⟩
      · rw [if_neg h2]
        exact addOrgs_extends rest cands
    · rw [if_neg hm]
      by_cases h2 : 2 ≤ (cands ++ [extractRole o]).length
      · rw [if_pos h2]
        exact ⟨[extractRole o], rfl⟩
      · rw [if_neg h2]
        rcases addOrgs_extends rest (cands ++ [extractRole o]) with ⟨tail, htail⟩
        exact ⟨extractRole o :: tail, by rw [htail, List.append_assoc]; rfl⟩

lemma recitalBase_length_le (t : String) : (recitalBase t).length ≤ 2 := by
  rw [recitalBase]
  rcases recitalMatch t with - | ⟨ma, mb⟩
  · simp
  · simp only [List.length_append]
    split <;> split <;> simp

lemma detectCandidates_length_le (text : String) :
    (detectCandidates text).length ≤ 2 := by
  rw [detectCandidates]
  have hb := recitalBase_length_le (normalizeSpaces text)
  split
  · next h => exact addOrgs_length_le _ _ h
  · exact hb

/-- C10: `detectParties` returns at most 2 parties for every input — the
recital heuristic contributes at most two candidates, and the fallback loop
runs only below 2 candidates and stops at 2 — so the final `slice(0, 5)`
never removes anything. -/
theorem C10_detect_at_most_two (text : String) :
    (detectParties text).length ≤ 2 ∧
    detectParties text = detectCandidates text := by
  have h := detectCandidates_length_le text
  constructor
  · rw [detectParties]
    calc ((detectCandidates text).take 5).length ≤ (detectCandidates text).length :=
          by rw [List.length_take]; omega
      _ ≤ 2 := h
  · rw [detectParties]
    exact List.take_of_length_le (by omega)

/-- C1 fails as stated on `between -- and Acme Co.`: the recital pattern
matches with first capture `--`, which scrubs to the empty string; the
source's `if (a)` guard then pushes no candidate for that capture, so no
empty-named Party appears and the capture yields no candidate at all. -/
theorem C1_recital_empty_scrub_counterexample :
    recitalMatch (normalizeSpaces ("between -- and Acme Co."))
      = some ("--", "Acme Co") ∧
    scrubName ("--") = "" ∧
    detectParties ("between -- and Acme Co.")
      = [{ name := "Acme Co", role := none }] ∧
    ({ name := "", role := none } : Party)
      ∉ detectParties ("between -- and Acme Co.") := by
  refine ⟨by decide, by decide, by decide, by decide⟩

/-- C1 (amended): when the recital pattern matches, a candidate is pushed
for each capture whose scrubbed fragment is a non-empty string; a capture
that scrubs to the empty string is silently dropped rather than kept as an
empty-named Party. -/
theorem C1_recital_candidates (text a b : String)
    (hm : recitalMatch (normalizeSpaces text) = some (a, b)) :
    (scrubName a ≠ "" → extractRole (scrubName a) ∈ detectParties text) ∧
    (scrubName b ≠ "" → extractRole (scrubName b) ∈ detectParties text) := by
  have hbase : ∀ p ∈ recitalBase (normalizeSpaces text),
      p ∈ detectParties text := by
    intro p hp
    rw [detectParties, List.take_of_length_le
      (by have := detectCandidates_length_le text; omega)]
    rw [detectCandidates]
    split
    · rcases addOrgs_extends (findOrgNames (normalizeSpaces text))
        (recitalBase (normalizeSpaces text)) with ⟨tail, htail⟩
      rw [htail]
      exact List.mem_append_left tail hp
    · exact hp
  constructor
  · intro ha
    apply hbase
    rw [recitalBase, hm]
    exact List.mem_append_left _ (by rw [if_pos ha]; exact List.mem_singleton_self _)
  · intro hb
    apply hbase
    rw [recitalBase, hm]
    exact List.mem_append_right _ (by rw [if_pos hb]; exact List.mem_singleton_self _)

/-- Witness for C1 (amended): on `between Alpha Co and Beta Co.` both
captures scrub to non-empty names, and both parties are detected. -/
theorem C1_recital_candidates_witness :
    extractRole (scrubName ("Alpha Co"))
        ∈ detectParties ("between Alpha Co and Beta Co.") ∧
    extractRole (scrubName ("Beta Co"))
        ∈ detectParties ("between Alpha Co and Beta Co.") :=
  ⟨(C1_recital_candidates ("between Alpha Co and Beta Co.") ("Alpha Co") ("Beta Co")
      (by decide)).1 (by decide),
   (C1_recital_candidates ("between Alpha Co and Beta Co.") ("Alpha Co") ("Beta Co")
      (by decide)).2 (by decide)⟩

end PartyHL
